import Mathlib

/-!
Shallow embedding of the study-planner core of `app.py`: the urgency ranker
(`days_until`, `urgency`, `get_priority_order`), the greedy weekly session
allocator (`ai_generate_plan`) and the productivity score
(`calc_productivity_score`).

Python floats are modelled as rationals.  The per-step `round(x, 1)` of the
source is modelled by `roundTenth` (round to the nearest tenth, half-up; the
half-even tie-break of Python floats differs only on exact midpoints, and no
statement below depends on a midpoint).  The source's
`while remaining > 0 and day_idx < 7` loop has no structural termination
argument — and indeed diverges on some inputs — so the loop is given explicit
fuel and returns `none` when the fuel runs out while the loop guard still
holds; `some` results are exactly the runs the Python function completes.
-/

namespace StudyPlanner

/-- Subject record as passed to the planner (a `subjects` row / dict in
`app.py`).  The deadline is the parsed date as an absolute day number;
`none` models a deadline string that `datetime.strptime` fails to parse. -/
structure Subject where
  id : ℕ
  total_hours : ℚ
  priority : ℤ
  deadline : Option ℤ
  completed_hours : ℚ := 0
  deriving DecidableEq

/-- One allocation block (a subject id and a number of hours) appended to a
day's list by `ai_generate_plan`. -/
structure Block where
  subject_id : ℕ
  hours : ℚ
  deriving DecidableEq

/-- Day names, `DAYS` in `app.py`.  Plans below are indexed by `Fin 7`,
day `d` standing for `DAYS[d]`. -/
def DAYS : List String :=
  ["Monday", "Tuesday", "Wednesday", "Thursday", "Friday", "Saturday", "Sunday"]

/-- Weekly plan: for each of the 7 days (0 = Monday … 6 = Sunday) the list of
blocks assigned to it, in insertion order. -/
abbrev Plan := Fin 7 → List Block

/-- Model of Python's `round(q, 1)`: round to the nearest tenth (half-up). -/
def roundTenth (q : ℚ) : ℚ := ((round (q * 10) : ℤ) : ℚ) / 10

/-- Model of `days_until` (`app.py` lines 112–117): `max(1, deadline - today)`
for a parseable deadline, and the fixed fallback 30 otherwise. -/
def days_until (today : ℤ) : Option ℤ → ℤ
  | some dl => max 1 (dl - today)
  | none => 30

/-- Urgency score (`app.py` lines 133–135 and 164–166):
`priority * 10 + min(50, 100 / days_left)`. -/
def urgency (today : ℤ) (s : Subject) : ℚ :=
  (s.priority : ℚ) * 10 + min 50 (100 / (days_until today s.deadline : ℚ))

/-- Model of `sorted(subjects, key=urgency, reverse=True)`: a stable sort in
descending urgency order. -/
def sorted_subs (today : ℤ) (subs : List Subject) : List Subject :=
  subs.mergeSort (fun a b => decide (urgency today b ≤ urgency today a))

/-- Model of `get_priority_order` (`app.py` lines 162–167). -/
def get_priority_order (today : ℤ) (subs : List Subject) : List Subject :=
  sorted_subs today subs

/-- Per-block cap (`app.py` line 151):
`3 if priority == 3 else (2 if priority == 2 else 1.5)`. -/
def max_block (p : ℤ) : ℚ := if p = 3 then 3 else if p = 2 then 2 else 3 / 2

/-- Mutable state of the allocation loops: the plan built so far, the day
cursor `day_idx` and the hours `day_hours` already scheduled on the current
day. -/
structure AllocState where
  plan : Plan
  day_idx : ℕ
  day_hours : ℚ

/-- Initial allocator state: every day empty, cursor on Monday. -/
def initState : AllocState := ⟨fun _ => [], 0, 0⟩

/-- Inner `while remaining > 0 and day_idx < 7` loop of `ai_generate_plan`
(`app.py` lines 144–158), for one subject, with explicit fuel.  A `none`
result means the fuel ran out while the loop guard still held, i.e. the
Python loop would still be running after that many iterations. -/
def allocSubject (hpd : ℚ) (sub : Subject) :
    ℕ → ℚ → AllocState → Option AllocState
  | 0, remaining, st =>
    if 0 < remaining ∧ st.day_idx < 7 then none else some st
  | fuel + 1, remaining, st =>
    if h : 0 < remaining ∧ st.day_idx < 7 then
      if hpd - st.day_hours ≤ 0 then
        allocSubject hpd sub fuel remaining ⟨st.plan, st.day_idx + 1, 0⟩
      else
        let block :=
          roundTenth (min remaining (min (hpd - st.day_hours) (max_block sub.priority)))
        let d : Fin 7 := ⟨st.day_idx, h.2⟩
        let plan' := Function.update st.plan d (st.plan d ++ [⟨sub.id, block⟩])
        let remaining' := roundTenth (remaining - block)
        let dh' := roundTenth (st.day_hours + block)
        if hpd ≤ dh' then
          allocSubject hpd sub fuel remaining' ⟨plan', st.day_idx + 1, 0⟩
        else
          allocSubject hpd sub fuel remaining' ⟨plan', st.day_idx, dh'⟩
    else some st

/-- Outer `for sub in sorted_subs` loop of `ai_generate_plan` (`app.py`
line 142): each subject's inner loop starts from `remaining =
sub.total_hours` and the day cursor left by the previous subject. -/
def allocAll (hpd : ℚ) (fuel : ℕ) : List Subject → AllocState → Option AllocState
  | [], st => some st
  | sub :: rest, st =>
    match allocSubject hpd sub fuel sub.total_hours st with
    | none => none
    | some st' => allocAll hpd fuel rest st'

/-- Model of `ai_generate_plan` (`app.py` lines 119–160): sort the subjects by
descending urgency (stable) and greedily pack blocks into the 7 days.  The
early return for an empty subject list coincides with the fold over `[]`. -/
def ai_generate_plan (fuel : ℕ) (today : ℤ) (subs : List Subject) (hpd : ℚ) :
    Option Plan :=
  Option.map AllocState.plan (allocAll hpd fuel (sorted_subs today subs) initState)

/-- Session row as consumed by `calc_productivity_score` (only `status` is
read there). -/
structure SessionRec where
  subject_id : ℕ
  hours : ℚ
  status : String
  deriving DecidableEq

/-- Sum of `total_hours` over the subject list (`total_h` in `app.py`). -/
def total_h (subs : List Subject) : ℚ := (subs.map Subject.total_hours).sum

/-- Sum of `completed_hours` over the subject list (`done_h` in `app.py`). -/
def done_h (subs : List Subject) : ℚ := (subs.map Subject.completed_hours).sum

/-- Number of sessions whose status is `"missed"`. -/
def missed_count (sess : List SessionRec) : ℕ :=
  (sess.filter (fun s => s.status == "missed")).length

/-- Model of `calc_productivity_score` (`app.py` lines 169–177). -/
def calc_productivity_score (subs : List Subject) (sess : List SessionRec) : ℤ :=
  if total_h subs = 0 then 0
  else
    max 0 (round (done_h subs / total_h subs * 100 -
      min ((missed_count sess : ℚ) * 3) 25))

/-- Formula of §4.3 of the spec, written from the spec's words, to compare
with `calc_productivity_score`. -/
def score_spec (subs : List Subject) (sess : List SessionRec) : ℤ :=
  if total_h subs = 0 then 0
  else
    max 0 (round (done_h subs / total_h subs * 100 -
      min ((missed_count sess : ℚ) * 3) 25))

/-- Sum of the hours of the blocks assigned to day `d`. -/
def daySum (plan : Plan) (d : Fin 7) : ℚ := ((plan d).map Block.hours).sum

/-- Sum of the hours of all blocks of the plan. -/
def totalSum (plan : Plan) : ℚ := ∑ d : Fin 7, daySum plan d

/-- Sum over the whole plan of the hours of the blocks carrying subject id
`i`. -/
def allocatedTo (plan : Plan) (i : ℕ) : ℚ :=
  ∑ d : Fin 7, (((plan d).filter (fun b => b.subject_id == i)).map Block.hours).sum

/-- Rationals that are an integer number of tenths — the granularity that the
allocator's rounding step preserves. -/
def Tenths (q : ℚ) : Prop := ∃ k : ℤ, q = (k : ℚ) / 10

/-- Loop invariant of the allocator, for a fixed daily capacity `hpd`:
`day_hours` is a nonnegative number of tenths equal to the block sum of the
current day, days past the cursor are still empty, days before the cursor
were only abandoned once full, no day exceeds the capacity by more than half
a rounding unit, and every emitted block is a nonnegative number of tenths. -/
structure Inv (hpd : ℚ) (st : AllocState) : Prop where
  dh_tenths : Tenths st.day_hours
  dh_nonneg : 0 ≤ st.day_hours
  idx_le : st.day_idx ≤ 7
  cur : ∀ h : st.day_idx < 7, daySum st.plan ⟨st.day_idx, h⟩ = st.day_hours
  future : ∀ d : Fin 7, st.day_idx < d.val → st.plan d = []
  past_full : ∀ d : Fin 7, d.val < st.day_idx → hpd ≤ daySum st.plan d
  bound : ∀ d : Fin 7, daySum st.plan d ≤ max 0 hpd + 1 / 20
  blocks : ∀ d : Fin 7, ∀ b ∈ st.plan d, 0 ≤ b.hours ∧ Tenths b.hours

lemma tenths_zero : Tenths 0 := ⟨0, by norm_num⟩

lemma tenths_roundTenth (q : ℚ) : Tenths (roundTenth q) := ⟨round (q * 10), rfl⟩

lemma tenths_add {a b : ℚ} (ha : Tenths a) (hb : Tenths b) : Tenths (a + b) := by
  obtain ⟨j, rfl⟩ := ha
  obtain ⟨k, rfl⟩ := hb
  exact ⟨j + k, by push_cast; ring⟩

lemma tenths_sub {a b : ℚ} (ha : Tenths a) (hb : Tenths b) : Tenths (a - b) := by
  obtain ⟨j, rfl⟩ := ha
  obtain ⟨k, rfl⟩ := hb
  exact ⟨j - k, by push_cast; ring⟩

lemma tenths_min {a b : ℚ} (ha : Tenths a) (hb : Tenths b) : Tenths (min a b) := by
  rcases le_total a b with h | h
  · rwa [min_eq_left h]
  · rwa [min_eq_right h]

lemma roundTenth_eq_self {q : ℚ} (h : Tenths q) : roundTenth q = q := by
  obtain ⟨k, rfl⟩ := h
  have h10 : ((k : ℚ) / 10) * 10 = (k : ℚ) := by field_simp
  rw [roundTenth, h10, round_intCast]

lemma round_mono {a b : ℚ} (h : a ≤ b) : round a ≤ round b := by
  rw [round_eq, round_eq]
  exact Int.floor_le_floor (by linarith)

lemma roundTenth_mono {a b : ℚ} (h : a ≤ b) : roundTenth a ≤ roundTenth b := by
  have h1 : round (a * 10) ≤ round (b * 10) := round_mono (by linarith)
  have h2 : ((round (a * 10) : ℤ) : ℚ) ≤ ((round (b * 10) : ℤ) : ℚ) := by exact_mod_cast h1
  unfold roundTenth
  linarith

lemma roundTenth_nonneg {q : ℚ} (h : 0 ≤ q) : 0 ≤ roundTenth q := by
  have : roundTenth 0 ≤ roundTenth q := roundTenth_mono h
  simpa [roundTenth] using this

lemma roundTenth_le_add_twentieth (q : ℚ) : roundTenth q ≤ q + 1 / 20 := by
  have h := round_le_add_half (q * 10)
  rw [roundTenth, div_le_iff₀ (by norm_num : (0 : ℚ) < 10)]
  linarith

lemma tenths_pos_ge {q : ℚ} (h : Tenths q) (hq : 0 < q) : 1 / 10 ≤ q := by
  obtain ⟨k, rfl⟩ := h
  have hk : 0 < (k : ℚ) := by
    by_contra hk
    push_neg at hk
    have h0 : (k : ℚ) / 10 ≤ 0 := by
      apply div_nonpos_of_nonpos_of_nonneg hk
      norm_num
    linarith
  have hk1 : (1 : ℤ) ≤ k := by exact_mod_cast hk
  have h1 : (1 : ℚ) ≤ (k : ℚ) := by exact_mod_cast hk1
  linarith

lemma tenths_max_block (p : ℤ) : Tenths (max_block p) := by
  unfold max_block
  split
  · exact ⟨30, by norm_num⟩
  · split
    · exact ⟨20, by norm_num⟩
    · exact ⟨15, by norm_num⟩

lemma max_block_ge (p : ℤ) : 3 / 2 ≤ max_block p := by
  unfold max_block
  split
  · norm_num
  · split <;> norm_num

lemma daySum_update_self (plan : Plan) (d : Fin 7) (b : Block) :
    daySum (Function.update plan d (plan d ++ [b])) d = daySum plan d + b.hours := by
  simp [daySum]

lemma daySum_update_ne (plan : Plan) (d e : Fin 7) (l : List Block) (h : e ≠ d) :
    daySum (Function.update plan d l) e = daySum plan e := by
  simp [daySum, Function.update_apply, h]

lemma totalSum_update_append (plan : Plan) (d : Fin 7) (b : Block) :
    totalSum (Function.update plan d (plan d ++ [b])) = totalSum plan + b.hours := by
  unfold totalSum
  have key : ∀ e : Fin 7,
      daySum (Function.update plan d (plan d ++ [b])) e =
        daySum plan e + (if e = d then b.hours else 0) := by
    intro e
    by_cases he : e = d
    · subst he
      simp [daySum_update_self]
    · simp [daySum_update_ne plan d e _ he, he]
  rw [Finset.sum_congr rfl (fun e _ => key e), Finset.sum_add_distrib]
  simp

lemma allocatedTo_update_append (plan : Plan) (d : Fin 7) (b : Block) (i : ℕ) :
    allocatedTo (Function.update plan d (plan d ++ [b])) i =
      allocatedTo plan i + (if b.subject_id = i then b.hours else 0) := by
  unfold allocatedTo
  have key : ∀ e : Fin 7,
      (((Function.update plan d (plan d ++ [b]) e).filter
          (fun x => x.subject_id == i)).map Block.hours).sum =
        (((plan e).filter (fun x => x.subject_id == i)).map Block.hours).sum +
          (if e = d then (if b.subject_id = i then b.hours else 0) else 0) := by
    intro e
    by_cases he : e = d
    · subst he
      by_cases hb : b.subject_id = i
      · simp [List.filter_append, hb]
      · simp [List.filter_append, hb]
    · simp [Function.update_apply, he]
  rw [Finset.sum_congr rfl (fun e _ => key e), Finset.sum_add_distrib]
  simp

lemma mem_update_append {plan : Plan} {d e : Fin 7} {b c : Block}
    (h : c ∈ Function.update plan d (plan d ++ [b]) e) : c ∈ plan e ∨ c = b := by
  by_cases he : e = d
  · subst he
    rw [Function.update_same] at h
    rcases List.mem_append.mp h with h1 | h1
    · exact Or.inl h1
    · exact Or.inr (List.mem_singleton.mp h1)
  · rw [Function.update_noteq he] at h
    exact Or.inl h

lemma inv_init (hpd : ℚ) : Inv hpd initState := by
  constructor
  case dh_tenths => exact tenths_zero
  case dh_nonneg => exact le_refl 0
  case idx_le => exact Nat.zero_le 7
  case cur => intro h; rfl
  case future => intro d hd; rfl
  case past_full => intro d hd; exact absurd hd (Nat.not_lt_zero _)
  case bound =>
    intro d
    have h0 : (0 : ℚ) ≤ max 0 hpd := le_max_left 0 hpd
    have h1 : daySum initState.plan d = 0 := rfl
    rw [h1]
    linarith
  case blocks => intro d b hb; exact absurd hb (List.not_mem_nil b)

lemma inv_skip {hpd : ℚ} {st : AllocState} (hinv : Inv hpd st)
    (hidx : st.day_idx < 7) (hav : hpd - st.day_hours ≤ 0) :
    Inv hpd ⟨st.plan, st.day_idx + 1, 0⟩ := by
  have hfull : hpd ≤ st.day_hours := by linarith
  constructor
  case dh_tenths => exact tenths_zero
  case dh_nonneg => exact le_refl 0
  case idx_le => show st.day_idx + 1 ≤ 7; omega
  case cur =>
    intro h
    have h2 : st.plan ⟨st.day_idx + 1, h⟩ = [] := hinv.future _ (Nat.lt_succ_self _)
    show daySum st.plan ⟨st.day_idx + 1, h⟩ = 0
    rw [daySum, h2]
    rfl
  case future =>
    intro d hd
    exact hinv.future d (Nat.lt_of_succ_lt hd)
  case past_full =>
    intro d hd
    show hpd ≤ daySum st.plan d
    have hd' : d.val < st.day_idx + 1 := hd
    by_cases hlt : d.val < st.day_idx
    · exact hinv.past_full d hlt
    · have hdv : d.val = st.day_idx := by omega
      have hde : d = ⟨st.day_idx, hidx⟩ := Fin.ext hdv
      rw [hde, hinv.cur hidx]
      exact hfull
  case bound => exact hinv.bound
  case blocks => exact hinv.blocks

lemma inv_alloc {hpd : ℚ} {st : AllocState} (hinv : Inv hpd st)
    (hidx : st.day_idx < 7) (_hav : 0 < hpd - st.day_hours)
    (j : ℕ) (b : ℚ) (hb0 : 0 ≤ b) (hbt : Tenths b)
    (hble : b ≤ hpd - st.day_hours + 1 / 20) :
    daySum (Function.update st.plan ⟨st.day_idx, hidx⟩
        (st.plan ⟨st.day_idx, hidx⟩ ++ [⟨j, b⟩])) ⟨st.day_idx, hidx⟩ =
      st.day_hours + b ∧
    (hpd ≤ st.day_hours + b →
      Inv hpd ⟨Function.update st.plan ⟨st.day_idx, hidx⟩
        (st.plan ⟨st.day_idx, hidx⟩ ++ [⟨j, b⟩]), st.day_idx + 1, 0⟩) ∧
    (¬ hpd ≤ st.day_hours + b →
      Inv hpd ⟨Function.update st.plan ⟨st.day_idx, hidx⟩
        (st.plan ⟨st.day_idx, hidx⟩ ++ [⟨j, b⟩]), st.day_idx, st.day_hours + b⟩) := by
  set d : Fin 7 := ⟨st.day_idx, hidx⟩ with hd
  set plan' : Plan := Function.update st.plan d (st.plan d ++ [⟨j, b⟩]) with hplan
  have hsum : daySum plan' d = st.day_hours + b := by
    rw [hplan, daySum_update_self, hinv.cur hidx]
  have hsum_ne : ∀ e : Fin 7, e ≠ d → daySum plan' e = daySum st.plan e := by
    intro e he
    rw [hplan, daySum_update_ne _ _ _ _ he]
  have hbound : ∀ e : Fin 7, daySum plan' e ≤ max 0 hpd + 1 / 20 := by
    intro e
    by_cases he : e = d
    · subst he
      rw [hsum]
      have hm : hpd ≤ max 0 hpd := le_max_right 0 hpd
      linarith
    · rw [hsum_ne e he]
      exact hinv.bound e
  have hblocks : ∀ e : Fin 7, ∀ c ∈ plan' e, 0 ≤ c.hours ∧ Tenths c.hours := by
    intro e c hc
    rcases mem_update_append hc with h1 | h1
    · exact hinv.blocks e c h1
    · subst h1
      exact ⟨hb0, hbt⟩
  have hfuture : ∀ e : Fin 7, st.day_idx < e.val → plan' e = [] := by
    intro e he
    have hne : e ≠ d := by
      intro hcontra
      rw [hcontra, hd] at he
      exact absurd he (lt_irrefl _)
    rw [hplan, Function.update_noteq hne]
    exact hinv.future e he
  refine ⟨hsum, ?_, ?_⟩
  · intro hge
    constructor
    case dh_tenths => exact tenths_zero
    case dh_nonneg => exact le_refl 0
    case idx_le => show st.day_idx + 1 ≤ 7; omega
    case cur =>
      intro h
      have h2 : plan' ⟨st.day_idx + 1, h⟩ = [] := hfuture _ (Nat.lt_succ_self _)
      show daySum plan' ⟨st.day_idx + 1, h⟩ = 0
      rw [daySum, h2]
      rfl
    case future =>
      intro e he
      exact hfuture e (Nat.lt_of_succ_lt he)
    case past_full =>
      intro e he
      show hpd ≤ daySum plan' e
      have he' : e.val < st.day_idx + 1 := he
      by_cases hlt : e.val < st.day_idx
      · have hne : e ≠ d := by
          intro hcontra
          rw [hcontra, hd] at hlt
          exact absurd hlt (lt_irrefl _)
        rw [hsum_ne e hne]
        exact hinv.past_full e hlt
      · have hdv : e.val = st.day_idx := by omega
        have hde : e = d := Fin.ext hdv
        rw [hde, hsum]
        exact hge
    case bound => exact hbound
    case blocks => exact hblocks
  · intro hlt
    constructor
    case dh_tenths => exact tenths_add hinv.dh_tenths hbt
    case dh_nonneg => show 0 ≤ st.day_hours + b; linarith [hinv.dh_nonneg]
    case idx_le => exact hinv.idx_le
    case cur =>
      intro h
      exact hsum
    case future => exact hfuture
    case past_full =>
      intro e he
      show hpd ≤ daySum plan' e
      have hne : e ≠ d := by
        intro hcontra
        rw [hcontra, hd] at he
        exact absurd he (lt_irrefl _)
      rw [hsum_ne e hne]
      exact hinv.past_full e he
    case bound => exact hbound
    case blocks => exact hblocks

lemma allocSubject_inv {hpd : ℚ} {sub : Subject} (fuel : ℕ) :
    ∀ (rem : ℚ) (st st' : AllocState), Inv hpd st →
      allocSubject hpd sub fuel rem st = some st' →
      Inv hpd st' ∧ st.day_idx ≤ st'.day_idx ∧
        ∀ (d : Fin 7), ∀ c ∈ st'.plan d,
          c ∈ st.plan d ∨
            (c.subject_id = sub.id ∧ c.hours ≤ max_block sub.priority) := by
  induction fuel with
  | zero =>
    intro rem st st' hinv h
    rw [allocSubject] at h
    split at h
    · exact absurd h (by simp)
    · injection h with h2
      subst h2
      exact ⟨hinv, le_refl _, fun d c hc => Or.inl hc⟩
  | succ fuel ih =>
    intro rem st st' hinv h
    rw [allocSubject] at h
    split at h
    case isFalse hg =>
      injection h with h2
      subst h2
      exact ⟨hinv, le_refl _, fun d c hc => Or.inl hc⟩
    case isTrue hg =>
      split at h
      case isTrue hav =>
        obtain ⟨hinv3, hmono, hgrow⟩ := ih _ _ _ (inv_skip hinv hg.2 hav) h
        exact ⟨hinv3, le_trans (Nat.le_succ _) hmono, hgrow⟩
      case isFalse hav =>
        simp only [] at h
        have hav' : 0 < hpd - st.day_hours := lt_of_not_le hav
        set b : ℚ :=
          roundTenth (min rem (min (hpd - st.day_hours) (max_block sub.priority))) with hbdef
        have hmin0 : 0 ≤ min rem (min (hpd - st.day_hours) (max_block sub.priority)) := by
          refine le_min (le_of_lt hg.1) (le_min (le_of_lt hav') ?_)
          linarith [max_block_ge sub.priority]
        have hb0 : 0 ≤ b := roundTenth_nonneg hmin0
        have hbt : Tenths b := tenths_roundTenth _
        have hble : b ≤ hpd - st.day_hours + 1 / 20 := by
          have h1 : min rem (min (hpd - st.day_hours) (max_block sub.priority)) ≤
              hpd - st.day_hours := le_trans (min_le_right _ _) (min_le_left _ _)
          have h2 := roundTenth_le_add_twentieth
            (min rem (min (hpd - st.day_hours) (max_block sub.priority)))
          rw [← hbdef] at h2
          linarith
        have hbcap : b ≤ max_block sub.priority := by
          have h1 : min rem (min (hpd - st.day_hours) (max_block sub.priority)) ≤
              max_block sub.priority := le_trans (min_le_right _ _) (min_le_right _ _)
          have h2 := roundTenth_mono h1
          rw [← hbdef, roundTenth_eq_self (tenths_max_block sub.priority)] at h2
          exact h2
        have hdh : roundTenth (st.day_hours + b) = st.day_hours + b :=
          roundTenth_eq_self (tenths_add hinv.dh_tenths hbt)
        obtain ⟨hs, hc2, hc3⟩ := inv_alloc hinv hg.2 hav' sub.id b hb0 hbt hble
        split at h
        case isTrue hadv =>
          rw [hdh] at hadv
          obtain ⟨hinv3, hmono, hgrow⟩ := ih _ _ _ (hc2 hadv) h
          refine ⟨hinv3, le_trans (Nat.le_succ _) hmono, ?_⟩
          intro d c hc
          rcases hgrow d c hc with h1 | h1
          · rcases mem_update_append h1 with h2 | h2
            · exact Or.inl h2
            · subst h2
              exact Or.inr ⟨rfl, hbcap⟩
          · exact Or.inr h1
        case isFalse hadv =>
          rw [hdh] at hadv h
          obtain ⟨hinv3, hmono, hgrow⟩ := ih _ _ _ (hc3 hadv) h
          refine ⟨hinv3, le_trans (le_refl _) hmono, ?_⟩
          intro d c hc
          rcases hgrow d c hc with h1 | h1
          · rcases mem_update_append h1 with h2 | h2
            · exact Or.inl h2
            · subst h2
              exact Or.inr ⟨rfl, hbcap⟩
          · exact Or.inr h1

lemma allocAll_cons_none {hpd : ℚ} {fuel : ℕ} {sub : Subject} {rest : List Subject}
    {st : AllocState} (heq : allocSubject hpd sub fuel sub.total_hours st = none) :
    allocAll hpd fuel (sub :: rest) st = none := by
  rw [allocAll, heq]

lemma allocAll_cons_some {hpd : ℚ} {fuel : ℕ} {sub : Subject} {rest : List Subject}
    {st st2 : AllocState} (heq : allocSubject hpd sub fuel sub.total_hours st = some st2) :
    allocAll hpd fuel (sub :: rest) st = allocAll hpd fuel rest st2 := by
  rw [allocAll, heq]

lemma allocAll_inv {hpd : ℚ} {fuel : ℕ} :
    ∀ (subs : List Subject) (st st' : AllocState), Inv hpd st →
      allocAll hpd fuel subs st = some st' →
      Inv hpd st' ∧ st.day_idx ≤ st'.day_idx ∧
        ∀ (d : Fin 7), ∀ c ∈ st'.plan d,
          c ∈ st.plan d ∨ ∃ s ∈ subs, c.subject_id = s.id ∧ c.hours ≤ max_block s.priority
  | [], st, st', hinv, h => by
    rw [allocAll] at h
    injection h with h2
    subst h2
    exact ⟨hinv, le_refl _, fun d c hc => Or.inl hc⟩
  | sub :: rest, st, st', hinv, h => by
    cases heq : allocSubject hpd sub fuel sub.total_hours st with
    | none =>
      rw [allocAll_cons_none heq] at h
      exact absurd h (by simp)
    | some st2 =>
      rw [allocAll_cons_some heq] at h
      obtain ⟨hinv2, hmono2, hgrow2⟩ := allocSubject_inv fuel _ _ _ hinv heq
      obtain ⟨hinv3, hmono3, hgrow3⟩ := allocAll_inv rest st2 st' hinv2 h
      refine ⟨hinv3, le_trans hmono2 hmono3, ?_⟩
      intro d c hc
      rcases hgrow3 d c hc with h1 | h1
      · rcases hgrow2 d c h1 with h2 | h2
        · exact Or.inl h2
        · exact Or.inr ⟨sub, List.mem_cons_self _ _, h2⟩
      · obtain ⟨s, hs, hprop⟩ := h1
        exact Or.inr ⟨s, List.mem_cons_of_mem _ hs, hprop⟩

lemma gen_elim {fuel : ℕ} {today : ℤ} {subs : List Subject} {hpd : ℚ} {plan : Plan}
    (h : ai_generate_plan fuel today subs hpd = some plan) :
    ∃ st', allocAll hpd fuel (sorted_subs today subs) initState = some st' ∧
      st'.plan = plan := by
  unfold ai_generate_plan at h
  cases hA : allocAll hpd fuel (sorted_subs today subs) initState with
  | none => rw [hA] at h; exact absurd h (by simp)
  | some st' =>
    rw [hA] at h
    simp only [Option.map_some'] at h
    injection h with h2
    exact ⟨st', rfl, h2⟩

lemma allocSubject_stuck {hpd : ℚ} {sub : Subject} :
    ∀ (fuel : ℕ) (rem : ℚ) (st : AllocState), 0 < rem → st.day_idx < 7 →
      0 < hpd - st.day_hours → Tenths st.day_hours → roundTenth rem = rem →
      roundTenth (min rem (min (hpd - st.day_hours) (max_block sub.priority))) = 0 →
      allocSubject hpd sub fuel rem st = none := by
  intro fuel
  induction fuel with
  | zero =>
    intro rem st h1 h2 h3 h4 h5 h6
    rw [allocSubject, if_pos ⟨h1, h2⟩]
  | succ fuel ih =>
    intro rem st h1 h2 h3 h4 h5 h6
    rw [allocSubject, dif_pos ⟨h1, h2⟩, if_neg (not_le.mpr h3)]
    simp only []
    rw [h6, add_zero, roundTenth_eq_self h4, sub_zero, h5,
      if_neg (not_le.mpr (by linarith))]
    exact ih rem _ h1 h2 h3 h4 h5 h6

lemma allocSubject_tenths {hpd : ℚ} {sub : Subject} :
    ∀ (fuel : ℕ) (rem : ℚ) (st st' : AllocState), Tenths rem → Tenths st.day_hours →
      allocSubject hpd sub fuel rem st = some st' →
      ∃ rem2 : ℚ, Tenths rem2 ∧ Tenths st'.day_hours ∧ st.day_idx ≤ st'.day_idx ∧
        (0 ≤ rem → 0 ≤ rem2 ∧ (rem2 = 0 ∨ 7 ≤ st'.day_idx)) ∧
        totalSum st'.plan = totalSum st.plan + (rem - rem2) ∧
        allocatedTo st'.plan sub.id = allocatedTo st.plan sub.id + (rem - rem2) ∧
        (∀ i : ℕ, i ≠ sub.id → allocatedTo st'.plan i = allocatedTo st.plan i) ∧
        (∀ (d : Fin 7), ∀ c ∈ st'.plan d, c ∈ st.plan d ∨ 0 < c.hours) := by
  intro fuel
  induction fuel with
  | zero =>
    intro rem st st' hrt hdt h
    rw [allocSubject] at h
    split at h
    · exact absurd h (by simp)
    case isFalse hg =>
      injection h with h2
      subst h2
      refine ⟨rem, hrt, hdt, le_refl _, ?_, by ring_nf, by ring_nf,
        fun i _ => rfl, fun d c hc => Or.inl hc⟩
      intro hr0
      refine ⟨hr0, ?_⟩
      rcases eq_or_lt_of_le hr0 with he | hlt
      · exact Or.inl he.symm
      · push_neg at hg
        exact Or.inr (hg hlt)
  | succ fuel ih =>
    intro rem st st' hrt hdt h
    rw [allocSubject] at h
    split at h
    case isFalse hg =>
      injection h with h2
      subst h2
      refine ⟨rem, hrt, hdt, le_refl _, ?_, by ring_nf, by ring_nf,
        fun i _ => rfl, fun d c hc => Or.inl hc⟩
      intro hr0
      refine ⟨hr0, ?_⟩
      rcases eq_or_lt_of_le hr0 with he | hlt
      · exact Or.inl he.symm
      · push_neg at hg
        exact Or.inr (hg hlt)
    case isTrue hg =>
      split at h
      case isTrue hav =>
        obtain ⟨rem2, ht2, htdh, hmono, hcond, htot, halloc, hother, hpos⟩ :=
          ih rem _ st' hrt tenths_zero h
        exact ⟨rem2, ht2, htdh, le_trans (Nat.le_succ _) hmono, hcond, htot, halloc,
          hother, hpos⟩
      case isFalse hav =>
        simp only [] at h
        have hav' : 0 < hpd - st.day_hours := lt_of_not_le hav
        set b : ℚ :=
          roundTenth (min rem (min (hpd - st.day_hours) (max_block sub.priority))) with hbdef
        by_cases hbz : b = 0
        · exfalso
          have hn := allocSubject_stuck (fuel + 1) rem st hg.1 hg.2 hav' hdt
            (roundTenth_eq_self hrt) (by rw [← hbdef]; exact hbz)
          rw [allocSubject, dif_pos hg, if_neg hav] at hn
          simp only [] at hn
          rw [← hbdef] at hn
          rw [hn] at h
          exact absurd h (by simp)
        · have hbt : Tenths b := tenths_roundTenth _
          have hmin0 : 0 ≤ min rem (min (hpd - st.day_hours) (max_block sub.priority)) := by
            refine le_min (le_of_lt hg.1) (le_min (le_of_lt hav') ?_)
            linarith [max_block_ge sub.priority]
          have hb0 : 0 ≤ b := roundTenth_nonneg hmin0
          have hbpos : 0 < b := lt_of_le_of_ne hb0 (Ne.symm hbz)
          have hble : b ≤ rem := by
            have h1 : min rem (min (hpd - st.day_hours) (max_block sub.priority)) ≤ rem :=
              min_le_left _ _
            have h2 := roundTenth_mono h1
            rw [← hbdef, roundTenth_eq_self hrt] at h2
            exact h2
          have hrem' : roundTenth (rem - b) = rem - b :=
            roundTenth_eq_self (tenths_sub hrt hbt)
          have hdh : roundTenth (st.day_hours + b) = st.day_hours + b :=
            roundTenth_eq_self (tenths_add hdt hbt)
          rw [hrem', hdh] at h
          have htotstep := totalSum_update_append st.plan ⟨st.day_idx, hg.2⟩ ⟨sub.id, b⟩
          have hallocstep := allocatedTo_update_append st.plan ⟨st.day_idx, hg.2⟩ ⟨sub.id, b⟩
          split at h
          · obtain ⟨rem2, ht2, htdh, hmono, hcond, htot, halloc, hother, hpos⟩ :=
              ih (rem - b) _ st' (tenths_sub hrt hbt) tenths_zero h
            refine ⟨rem2, ht2, htdh, le_trans (Nat.le_succ _) hmono, ?_, ?_, ?_, ?_, ?_⟩
            · intro hr0
              exact hcond (by linarith)
            · rw [htot]
              show totalSum (Function.update st.plan _ _) + _ = _
              rw [htotstep]
              ring
            · rw [halloc]
              show allocatedTo (Function.update st.plan _ _) sub.id + _ = _
              rw [hallocstep sub.id, if_pos rfl]
              ring
            · intro i hi
              rw [hother i hi]
              show allocatedTo (Function.update st.plan _ _) i = _
              rw [hallocstep i, if_neg (Ne.symm hi), add_zero]
            · intro d c hc
              rcases hpos d c hc with h1 | h1
              · rcases mem_update_append h1 with h2 | h2
                · exact Or.inl h2
                · subst h2
                  exact Or.inr hbpos
              · exact Or.inr h1
          · obtain ⟨rem2, ht2, htdh, hmono, hcond, htot, halloc, hother, hpos⟩ :=
              ih (rem - b) _ st' (tenths_sub hrt hbt) (tenths_add hdt hbt) h
            refine ⟨rem2, ht2, htdh, hmono, ?_, ?_, ?_, ?_, ?_⟩
            · intro hr0
              exact hcond (by linarith)
            · rw [htot]
              show totalSum (Function.update st.plan _ _) + _ = _
              rw [htotstep]
              ring
            · rw [halloc]
              show allocatedTo (Function.update st.plan _ _) sub.id + _ = _
              rw [hallocstep sub.id, if_pos rfl]
              ring
            · intro i hi
              rw [hother i hi]
              show allocatedTo (Function.update st.plan _ _) i = _
              rw [hallocstep i, if_neg (Ne.symm hi), add_zero]
            · intro d c hc
              rcases hpos d c hc with h1 | h1
              · rcases mem_update_append h1 with h2 | h2
                · exact Or.inl h2
                · subst h2
                  exact Or.inr hbpos
              · exact Or.inr h1

lemma total_h_cons (sub : Subject) (rest : List Subject) :
    total_h (sub :: rest) = sub.total_hours + total_h rest := by
  simp [total_h]

lemma allocAll_pos {hpd : ℚ} {fuel : ℕ} :
    ∀ (subs : List Subject) (st st' : AllocState),
      (∀ s ∈ subs, Tenths s.total_hours) → Tenths st.day_hours →
      allocAll hpd fuel subs st = some st' →
      Tenths st'.day_hours ∧
        ∀ (d : Fin 7), ∀ c ∈ st'.plan d, c ∈ st.plan d ∨ 0 < c.hours
  | [], st, st', hT, hdt, h => by
    rw [allocAll] at h
    injection h with h2
    subst h2
    exact ⟨hdt, fun d c hc => Or.inl hc⟩
  | sub :: rest, st, st', hT, hdt, h => by
    cases heq : allocSubject hpd sub fuel sub.total_hours st with
    | none =>
      rw [allocAll_cons_none heq] at h
      exact absurd h (by simp)
    | some st2 =>
      rw [allocAll_cons_some heq] at h
      obtain ⟨rem2, -, htdh2, -, -, -, -, -, hpos2⟩ :=
        allocSubject_tenths fuel _ _ _ (hT sub (List.mem_cons_self _ _)) hdt heq
      obtain ⟨htdh3, hpos3⟩ := allocAll_pos rest st2 st'
        (fun s hs => hT s (List.mem_cons_of_mem _ hs)) htdh2 h
      refine ⟨htdh3, fun d c hc => ?_⟩
      rcases hpos3 d c hc with h1 | h1
      · exact hpos2 d c h1
      · exact Or.inr h1

lemma allocAll_main {hpd : ℚ} {fuel : ℕ} :
    ∀ (subs : List Subject) (st st' : AllocState),
      (∀ s ∈ subs, Tenths s.total_hours ∧ 0 ≤ s.total_hours) →
      (subs.map Subject.id).Nodup → Tenths st.day_hours →
      allocAll hpd fuel subs st = some st' →
      Tenths st'.day_hours ∧ st.day_idx ≤ st'.day_idx ∧
        ∃ R : ℚ, 0 ≤ R ∧
          totalSum st'.plan = totalSum st.plan + (total_h subs - R) ∧
          (∀ s ∈ subs, ∃ r : ℚ, 0 ≤ r ∧ r ≤ R ∧ (r = 0 ∨ 7 ≤ st'.day_idx) ∧
            allocatedTo st'.plan s.id = allocatedTo st.plan s.id + (s.total_hours - r)) ∧
          (∀ i : ℕ, i ∉ subs.map Subject.id →
            allocatedTo st'.plan i = allocatedTo st.plan i)
  | [], st, st', hT, hnd, hdt, h => by
    rw [allocAll] at h
    injection h with h2
    subst h2
    refine ⟨hdt, le_refl _, 0, le_refl 0, ?_, ?_, fun i _ => rfl⟩
    · simp [total_h]
    · intro s hs
      exact absurd hs (List.not_mem_nil s)
  | sub :: rest, st, st', hT, hnd, hdt, h => by
    cases heq : allocSubject hpd sub fuel sub.total_hours st with
    | none =>
      rw [allocAll_cons_none heq] at h
      exact absurd h (by simp)
    | some st2 =>
      rw [allocAll_cons_some heq] at h
      rw [List.map_cons, List.nodup_cons] at hnd
      obtain ⟨hnid, hnd'⟩ := hnd
      obtain ⟨r1, htr1, htdh2, hmono2, hcond, htot2, halloc2, hother2, -⟩ :=
        allocSubject_tenths fuel _ _ _ (hT sub (List.mem_cons_self _ _)).1 hdt heq
      obtain ⟨hr10, hr1alt⟩ := hcond (hT sub (List.mem_cons_self _ _)).2
      obtain ⟨htdh3, hmono3, R2, hR20, htot3, hsub3, hout3⟩ :=
        allocAll_main rest st2 st' (fun s hs => hT s (List.mem_cons_of_mem _ hs))
          hnd' htdh2 h
      refine ⟨htdh3, le_trans hmono2 hmono3, r1 + R2, by linarith, ?_, ?_, ?_⟩
      · rw [htot3, htot2, total_h_cons]
        ring
      · intro s hs
        rcases List.mem_cons.mp hs with hs1 | hs1
        · subst hs1
          refine ⟨r1, hr10, by linarith, ?_, ?_⟩
          · rcases hr1alt with h1 | h1
            · exact Or.inl h1
            · exact Or.inr (le_trans h1 hmono3)
          · rw [hout3 s.id hnid, halloc2]
        · obtain ⟨r, hr0, hrR, hralt, hreq⟩ := hsub3 s hs1
          have hne : s.id ≠ sub.id := by
            intro hcontra
            exact hnid (hcontra ▸ List.mem_map_of_mem Subject.id hs1)
          refine ⟨r, hr0, by linarith, hralt, ?_⟩
          rw [hreq, hother2 s.id hne]
      · intro i hi
        rw [List.map_cons, List.mem_cons] at hi
        push_neg at hi
        rw [hout3 i hi.2, hother2 i hi.1]

lemma allocSubject_isSome {hpd : ℚ} (sub : Subject) (htcap : Tenths hpd) :
    ∀ (fuel n : ℕ) (rem : ℚ) (st : AllocState), Tenths rem → Tenths st.day_hours →
      rem * 10 ≤ (n : ℚ) → (7 - st.day_idx) + n < fuel →
      (allocSubject hpd sub fuel rem st).isSome := by
  intro fuel
  induction fuel with
  | zero =>
    intro n rem st _ _ _ hf
    exact absurd hf (Nat.not_lt_zero _)
  | succ fuel ih =>
    intro n rem st hrt hdt hn hf
    rw [allocSubject]
    split
    case isFalse hg => simp
    case isTrue hg =>
      have hidx : st.day_idx < 7 := hg.2
      split
      case isTrue hav =>
        exact ih n rem _ hrt tenths_zero hn
          (by show 7 - (st.day_idx + 1) + n < fuel; omega)
      case isFalse hav =>
        simp only []
        have hav' : 0 < hpd - st.day_hours := lt_of_not_le hav
        set b : ℚ :=
          roundTenth (min rem (min (hpd - st.day_hours) (max_block sub.priority))) with hbdef
        have hmt : Tenths (min rem (min (hpd - st.day_hours) (max_block sub.priority))) :=
          tenths_min hrt (tenths_min (tenths_sub htcap hdt) (tenths_max_block _))
        have hbeq : b = min rem (min (hpd - st.day_hours) (max_block sub.priority)) := by
          rw [hbdef]
          exact roundTenth_eq_self hmt
        have hminpos : 0 < min rem (min (hpd - st.day_hours) (max_block sub.priority)) :=
          lt_min hg.1 (lt_min hav'
            (lt_of_lt_of_le (by norm_num) (max_block_ge sub.priority)))
        have hbge : 1 / 10 ≤ b := by
          rw [hbeq]
          exact tenths_pos_ge hmt hminpos
        have hn1 : 1 ≤ n := by
          have h1 : (0 : ℚ) < rem * 10 := by
            have := hg.1
            positivity
          have h2 : (0 : ℚ) < (n : ℚ) := lt_of_lt_of_le h1 hn
          exact_mod_cast h2
        have hrem' : roundTenth (rem - b) = rem - b :=
          roundTenth_eq_self (tenths_sub hrt (tenths_roundTenth _))
        rw [hrem']
        have hnew : (rem - b) * 10 ≤ ((n - 1 : ℕ) : ℚ) := by
          have hcast : ((n - 1 : ℕ) : ℚ) = (n : ℚ) - 1 := by
            push_cast [hn1]
            ring
          rw [hcast]
          nlinarith
        split
        · exact ih (n - 1) (rem - b) _ (tenths_sub hrt (tenths_roundTenth _))
            tenths_zero hnew (by show 7 - (st.day_idx + 1) + (n - 1) < fuel; omega)
        · exact ih (n - 1) (rem - b) _ (tenths_sub hrt (tenths_roundTenth _))
            (tenths_roundTenth _) hnew (by show 7 - st.day_idx + (n - 1) < fuel; omega)

lemma allocAll_isSome {hpd : ℚ} (htcap : Tenths hpd) :
    ∀ (subs : List Subject) (N : ℕ) (st : AllocState),
      (∀ s ∈ subs, Tenths s.total_hours ∧ s.total_hours * 10 ≤ (N : ℚ)) →
      Tenths st.day_hours →
      (allocAll hpd (8 + N) subs st).isSome
  | [], N, st, hT, hdt => by
    rw [allocAll]
    simp
  | sub :: rest, N, st, hT, hdt => by
    have h1 := allocSubject_isSome sub htcap (8 + N) N sub.total_hours st
      (hT sub (List.mem_cons_self _ _)).1 hdt (hT sub (List.mem_cons_self _ _)).2
      (by omega)
    obtain ⟨st2, heq⟩ := Option.isSome_iff_exists.mp h1
    rw [allocAll_cons_some heq]
    obtain ⟨rem2, -, htdh2, -⟩ :=
      allocSubject_tenths (8 + N) _ _ _ (hT sub (List.mem_cons_self _ _)).1 hdt heq
    exact allocAll_isSome htcap rest N st2 (fun s hs => hT s (List.mem_cons_of_mem _ hs)) htdh2

lemma le_foldr_max : ∀ (l : List ℕ), ∀ x ∈ l, x ≤ l.foldr max 0
  | [], x, hx => absurd hx (List.not_mem_nil x)
  | y :: l, x, hx => by
    rcases List.mem_cons.mp hx with h | h
    · subst h
      exact le_max_left _ _
    · exact le_trans (le_foldr_max l x h) (le_max_right _ _)

lemma q_le_ceil_toNat (q : ℚ) : q ≤ ((⌈q⌉.toNat : ℕ) : ℚ) := by
  have h1 : q ≤ ((⌈q⌉ : ℤ) : ℚ) := Int.le_ceil q
  have h2 : (⌈q⌉ : ℤ) ≤ (⌈q⌉.toNat : ℤ) := Int.self_le_toNat _
  have h3 : ((⌈q⌉ : ℤ) : ℚ) ≤ (((⌈q⌉.toNat : ℤ)) : ℚ) := by exact_mod_cast h2
  have h4 : (((⌈q⌉.toNat : ℤ)) : ℚ) = ((⌈q⌉.toNat : ℕ) : ℚ) := by push_cast; ring
  linarith [h4 ▸ h3]

lemma allocSubject_cap0 {hpd : ℚ} {sub : Subject} (hcap : hpd ≤ 0) :
    ∀ (fuel : ℕ) (rem : ℚ) (st : AllocState), st.day_hours = 0 → 7 - st.day_idx ≤ fuel →
      ∃ i : ℕ, st.day_idx ≤ i ∧ allocSubject hpd sub fuel rem st = some ⟨st.plan, i, 0⟩ := by
  intro fuel
  induction fuel with
  | zero =>
    intro rem st hdh hf
    obtain ⟨p, i, dh⟩ := st
    simp only [] at hdh hf
    subst hdh
    refine ⟨i, le_refl _, ?_⟩
    rw [allocSubject, if_neg]
    intro hcon
    have h2 := hcon.2
    simp only [] at h2
    omega
  | succ fuel ih =>
    intro rem st hdh hf
    obtain ⟨p, i, dh⟩ := st
    simp only [] at hdh hf
    subst hdh
    by_cases hg : 0 < rem ∧ (⟨p, i, 0⟩ : AllocState).day_idx < 7
    · rw [allocSubject, dif_pos hg, if_pos (by show hpd - 0 ≤ 0; rw [sub_zero]; exact hcap)]
      obtain ⟨j, hj, heq⟩ := ih rem ⟨p, i + 1, 0⟩ rfl (by simp only []; omega)
      refine ⟨j, ?_, heq⟩
      simp only [] at hj
      show i ≤ j
      omega
    · rw [allocSubject, dif_neg hg]
      exact ⟨i, le_refl _, rfl⟩

lemma allocAll_cap0 {hpd : ℚ} (hcap : hpd ≤ 0) :
    ∀ (subs : List Subject) (fuel : ℕ) (st : AllocState), st.day_hours = 0 → 7 ≤ fuel →
      ∃ i : ℕ, st.day_idx ≤ i ∧ allocAll hpd fuel subs st = some ⟨st.plan, i, 0⟩ := by
  intro subs
  induction subs with
  | nil =>
    intro fuel st hdh hf
    obtain ⟨p, i, dh⟩ := st
    simp only [] at hdh
    subst hdh
    exact ⟨i, le_refl _, by rw [allocAll]⟩
  | cons sub rest ih =>
    intro fuel st hdh hf
    obtain ⟨j, hj, heq⟩ := allocSubject_cap0 hcap fuel sub.total_hours st hdh (by omega)
    rw [allocAll_cons_some heq]
    obtain ⟨k, hk, heq2⟩ := ih fuel ⟨st.plan, j, 0⟩ rfl hf
    simp only [] at hk
    exact ⟨k, le_trans hj hk, heq2⟩

lemma sorted_subs_nil (today : ℤ) : sorted_subs today [] = [] := by
  simp [sorted_subs]

lemma sorted_subs_singleton (today : ℤ) (s : Subject) :
    sorted_subs today [s] = [s] := by
  simp [sorted_subs]

lemma gen_nil_eval (fuel : ℕ) (today : ℤ) (hpd : ℚ) :
    ai_generate_plan fuel today [] hpd =
      Option.map AllocState.plan (allocAll hpd fuel [] initState) := by
  unfold ai_generate_plan
  rw [sorted_subs_nil]

lemma gen_singleton_eval (fuel : ℕ) (today : ℤ) (s : Subject) (hpd : ℚ) :
    ai_generate_plan fuel today [s] hpd =
      Option.map AllocState.plan (allocAll hpd fuel [s] initState) := by
  unfold ai_generate_plan
  rw [sorted_subs_singleton]

attribute [local semireducible] Rat.mul Rat.add Rat.sub Rat.inv Rat.ofScientific

lemma state_day_eval {x : Option AllocState} {st : AllocState}
    (hx : x = some st) (d : Fin 7) {l : List Block}
    (hd : Option.map (fun s => s.plan d) x = some l) : st.plan d = l := by
  subst hx
  simp only [Option.map_some'] at hd
  injection hd

/-- C1 (counterexample): the claim quantifies over every `dailyCapacity`, but
for a negative capacity (here -1) the allocator returns the all-empty plan,
whose Monday sum 0 exceeds `dailyCapacity + 0.1 = -0.9`. -/
theorem c1_day_capacity_counterexample :
    ∃ plan : Plan, ai_generate_plan 7 0 [] (-1) = some plan ∧
      ¬ (daySum plan 0 ≤ -1 + 1 / 10) := by
  refine ⟨initState.plan, (gen_nil_eval 7 0 (-1)).trans rfl, ?_⟩
  have h : daySum initState.plan 0 = 0 := rfl
  rw [h]
  norm_num

/-- C1 (amended: for nonnegative `dailyCapacity`): in any plan returned by
`ai_generate_plan`, every day's block-hour sum is at most
`dailyCapacity + 0.1` (in fact at most `dailyCapacity + 0.05`). -/
theorem c1_day_capacity_bound (fuel : ℕ) (today : ℤ) (subs : List Subject)
    (hpd : ℚ) (plan : Plan) (hcap : 0 ≤ hpd)
    (h : ai_generate_plan fuel today subs hpd = some plan) :
    ∀ d : Fin 7, daySum plan d ≤ hpd + 1 / 10 := by
  obtain ⟨st', hA, hP⟩ := gen_elim h
  obtain ⟨hinv, -, -⟩ := allocAll_inv _ _ _ (inv_init hpd) hA
  intro d
  have hb := hinv.bound d
  rw [hP, max_eq_right hcap] at hb
  linarith

/-- Witness for C1: a concrete run at capacity 5 in which every day's sum is
within the bound. -/
theorem c1_day_capacity_witness :
    ∃ plan : Plan, ai_generate_plan 10 0 [⟨1, 2, 2, some 5, 0⟩] 5 = some plan ∧
      ∀ d : Fin 7, daySum plan d ≤ 5 + 1 / 10 := by
  have hs : (allocAll 5 10 [⟨1, 2, 2, some 5, 0⟩] initState).isSome := by decide
  obtain ⟨st', hst⟩ := Option.isSome_iff_exists.mp hs
  have hgen : ai_generate_plan 10 0 [⟨1, 2, 2, some 5, 0⟩] 5 = some st'.plan := by
    rw [gen_singleton_eval, hst]
    rfl
  exact ⟨_, hgen, c1_day_capacity_bound 10 0 _ 5 _ (by norm_num) hgen⟩

/-- C2 (counterexample): a subject with `totalHours = 0.07` receives a single
0.1-hour block (`round(0.07, 1) = 0.1`), so the sum of its blocks exceeds its
`totalHours`. -/
theorem c2_conservation_counterexample :
    ∃ plan : Plan, ai_generate_plan 8 0 [⟨1, 7 / 100, 2, some 5, 0⟩] 5 = some plan ∧
      ¬ (allocatedTo plan 1 ≤ 7 / 100) := by
  have hs : (allocAll 5 8 [⟨1, 7 / 100, 2, some 5, 0⟩] initState).isSome := by decide
  obtain ⟨st', hst⟩ := Option.isSome_iff_exists.mp hs
  have hgen : ai_generate_plan 8 0 [⟨1, 7 / 100, 2, some 5, 0⟩] 5 = some st'.plan := by
    rw [gen_singleton_eval, hst]
    rfl
  refine ⟨_, hgen, ?_⟩
  have h0 : st'.plan 0 = [⟨1, 1 / 10⟩] := state_day_eval hst 0 (by decide)
  have h1 : st'.plan 1 = [] := state_day_eval hst 1 (by decide)
  have h2 : st'.plan 2 = [] := state_day_eval hst 2 (by decide)
  have h3 : st'.plan 3 = [] := state_day_eval hst 3 (by decide)
  have h4 : st'.plan 4 = [] := state_day_eval hst 4 (by decide)
  have h5 : st'.plan 5 = [] := state_day_eval hst 5 (by decide)
  have h6 : st'.plan 6 = [] := state_day_eval hst 6 (by decide)
  rw [allocatedTo, Fin.sum_univ_seven, h0, h1, h2, h3, h4, h5, h6]
  simp [List.filter]
  norm_num

/-- C2 (amended: for subjects whose `totalHours` are nonnegative multiples of
0.1 and whose ids are pairwise distinct): in any returned plan each subject
receives at most `totalHours` in total, with equality whenever the whole
7-day budget `7 * dailyCapacity` covers the sum of all `totalHours`.
Allocation starts from full `total_hours`, never from hours completed. -/
theorem c2_conservation (fuel : ℕ) (today : ℤ) (subs : List Subject) (hpd : ℚ)
    (plan : Plan) (s : Subject)
    (hT : ∀ t ∈ subs, Tenths t.total_hours ∧ 0 ≤ t.total_hours)
    (hnd : (subs.map Subject.id).Nodup)
    (h : ai_generate_plan fuel today subs hpd = some plan)
    (hs : s ∈ subs) :
    allocatedTo plan s.id ≤ s.total_hours ∧
      (total_h subs ≤ 7 * hpd → allocatedTo plan s.id = s.total_hours) := by
  obtain ⟨st', hA, hP⟩ := gen_elim h
  have hperm : (sorted_subs today subs).Perm subs := List.mergeSort_perm subs _
  have hT' : ∀ t ∈ sorted_subs today subs, Tenths t.total_hours ∧ 0 ≤ t.total_hours :=
    fun t ht => hT t (hperm.mem_iff.mp ht)
  have hnd' : ((sorted_subs today subs).map Subject.id).Nodup :=
    ((hperm.map Subject.id).nodup_iff).mpr hnd
  have hs' : s ∈ sorted_subs today subs := hperm.mem_iff.mpr hs
  have htot' : total_h (sorted_subs today subs) = total_h subs :=
    (hperm.map Subject.total_hours).sum_eq
  obtain ⟨hinv', hmono0, -⟩ := allocAll_inv _ _ _ (inv_init hpd) hA
  obtain ⟨-, -, R, hR0, htot, hsub, -⟩ := allocAll_main _ _ _ hT' hnd' tenths_zero hA
  obtain ⟨r, hr0, hrR, hralt, hreq⟩ := hsub s hs'
  have hinit0 : allocatedTo initState.plan s.id = 0 := by
    simp [allocatedTo, initState]
  have htot0 : totalSum initState.plan = 0 := by
    simp [totalSum, daySum, initState]
  rw [hP, hinit0, zero_add] at hreq
  constructor
  · rw [hreq]
    linarith
  · intro hbudget
    rcases hralt with h0 | h7
    · rw [hreq, h0]
      ring
    · have hfull : ∀ d : Fin 7, hpd ≤ daySum st'.plan d := by
        intro d
        have hd7 := d.isLt
        exact hinv'.past_full d (by omega)
      have hsum7 : (∑ _d : Fin 7, hpd) = 7 * hpd := by
        simp [Finset.sum_const, Finset.card_univ, nsmul_eq_mul]
      have hge : 7 * hpd ≤ totalSum st'.plan := by
        rw [totalSum, ← hsum7]
        exact Finset.sum_le_sum (fun d _ => hfull d)
      rw [htot0, zero_add, htot'] at htot
      have hR : R ≤ 0 := by
        rw [htot] at hge
        linarith
      have hr00 : r = 0 := le_antisymm (by linarith) hr0
      rw [hreq, hr00]
      ring

/-- Witness for C2: one subject with 5 whole hours at capacity 5 is allocated
exactly 5 hours. -/
theorem c2_conservation_witness :
    ∃ plan : Plan, ai_generate_plan 20 0 [⟨1, 5, 2, some 3, 0⟩] 5 = some plan ∧
      allocatedTo plan 1 ≤ 5 ∧
      (total_h [⟨1, 5, 2, some 3, 0⟩] ≤ 7 * 5 → allocatedTo plan 1 = 5) := by
  have hs : (allocAll 5 20 [⟨1, 5, 2, some 3, 0⟩] initState).isSome := by decide
  obtain ⟨st', hst⟩ := Option.isSome_iff_exists.mp hs
  have hgen : ai_generate_plan 20 0 [⟨1, 5, 2, some 3, 0⟩] 5 = some st'.plan := by
    rw [gen_singleton_eval, hst]
    rfl
  exact ⟨_, hgen, c2_conservation 20 0 [⟨1, 5, 2, some 3, 0⟩] 5 _ ⟨1, 5, 2, some 3, 0⟩
    (by intro t ht; simp at ht; subst ht; exact ⟨⟨50, by norm_num⟩, by norm_num⟩)
    (by simp) hgen (by simp)⟩

/-- C3 (counterexample): with `dailyCapacity = 0.04` and one subject of 1
hour, the inner loop makes no progress: the block rounds to 0.0 while
`remaining` and `day_hours` are left unchanged, so no amount of fuel makes
the function return — the Python loop runs forever. -/
theorem c3_termination_counterexample :
    ¬ ∃ (fuel : ℕ) (plan : Plan),
        ai_generate_plan fuel 0 [⟨1, 1, 2, some 5, 0⟩] (1 / 25) = some plan := by
  rintro ⟨fuel, plan, h⟩
  obtain ⟨st', hA, -⟩ := gen_elim h
  rw [sorted_subs_singleton] at hA
  have hstuck : allocSubject (1 / 25) ⟨1, 1, 2, some 5, 0⟩ fuel 1 initState = none := by
    apply allocSubject_stuck fuel 1 initState
    · norm_num
    · show (0 : ℕ) < 7
      norm_num
    · show (0 : ℚ) < 1 / 25 - 0
      norm_num
    · exact tenths_zero
    · decide
    · decide
  rw [allocAll_cons_none hstuck] at hA
  exact absurd hA (by simp)

/-- C3 (amended: the allocator terminates whenever `dailyCapacity` and every
subject's `totalHours` are integer multiples of 0.1, the granularity the
rounding step preserves; for other capacities the loop can run forever, see
the counterexample): some fuel suffices and a plan is returned. -/
theorem c3_termination (today : ℤ) (subs : List Subject) (hpd : ℚ)
    (htcap : Tenths hpd) (hT : ∀ s ∈ subs, Tenths s.total_hours) :
    ∃ (fuel : ℕ) (plan : Plan), ai_generate_plan fuel today subs hpd = some plan := by
  set N : ℕ := ((subs.map (fun s => (⌈s.total_hours * 10⌉).toNat)).foldr max 0) with hN
  have hbound : ∀ s ∈ sorted_subs today subs,
      Tenths s.total_hours ∧ s.total_hours * 10 ≤ (N : ℚ) := by
    intro s hs
    have hmem : s ∈ subs := (List.mergeSort_perm subs _).mem_iff.mp hs
    refine ⟨hT s hmem, ?_⟩
    have h1 : s.total_hours * 10 ≤ ((⌈s.total_hours * 10⌉.toNat : ℕ) : ℚ) :=
      q_le_ceil_toNat _
    have h2 : (⌈s.total_hours * 10⌉.toNat : ℕ) ≤ N :=
      le_foldr_max _ _ (List.mem_map_of_mem _ hmem)
    have h3 : ((⌈s.total_hours * 10⌉.toNat : ℕ) : ℚ) ≤ (N : ℚ) := by exact_mod_cast h2
    linarith
  have h := allocAll_isSome htcap (sorted_subs today subs) N initState hbound tenths_zero
  obtain ⟨st', heq⟩ := Option.isSome_iff_exists.mp h
  refine ⟨8 + N, st'.plan, ?_⟩
  unfold ai_generate_plan
  rw [heq]
  rfl

/-- Witness for C3: capacity 5 and a single 2-hour subject are multiples of
0.1, so a plan is produced. -/
theorem c3_termination_witness :
    ∃ (fuel : ℕ) (plan : Plan),
      ai_generate_plan fuel 0 [⟨1, 2, 2, some 5, 0⟩] 5 = some plan :=
  c3_termination 0 [⟨1, 2, 2, some 5, 0⟩] 5 ⟨50, by norm_num⟩
    (by intro s hs; simp at hs; subst hs; exact ⟨20, by norm_num⟩)

/-- C4: every block of a returned plan belongs to some input subject and
respects that subject's per-block cap — 3.0 for priority 3, 2.0 for
priority 2, and 1.5 for every other priority value (the silent fallback). -/
theorem c4_per_block_cap (fuel : ℕ) (today : ℤ) (subs : List Subject) (hpd : ℚ)
    (plan : Plan) (h : ai_generate_plan fuel today subs hpd = some plan) :
    ∀ (d : Fin 7), ∀ c ∈ plan d, ∃ s ∈ subs, c.subject_id = s.id ∧
      c.hours ≤ (if s.priority = 3 then 3 else if s.priority = 2 then 2 else 3 / 2) := by
  obtain ⟨st', hA, hP⟩ := gen_elim h
  obtain ⟨hinv, -, hgrow⟩ := allocAll_inv _ _ _ (inv_init hpd) hA
  intro d c hc
  rw [← hP] at hc
  rcases hgrow d c hc with h1 | h1
  · exact absurd h1 (List.not_mem_nil c)
  · obtain ⟨s, hs, hid, hcap⟩ := h1
    exact ⟨s, (List.mergeSort_perm subs _).mem_iff.mp hs, hid, hcap⟩

/-- Witness for C4: a concrete run whose blocks all satisfy the cap. -/
theorem c4_per_block_cap_witness :
    ∃ plan : Plan, ai_generate_plan 10 0 [⟨1, 4, 3, some 5, 0⟩] 5 = some plan ∧
      ∀ (d : Fin 7), ∀ c ∈ plan d, ∃ s ∈ [(⟨1, 4, 3, some 5, 0⟩ : Subject)],
        c.subject_id = s.id ∧
        c.hours ≤ (if s.priority = 3 then 3 else if s.priority = 2 then 2 else 3 / 2) := by
  have hs : (allocAll 5 10 [⟨1, 4, 3, some 5, 0⟩] initState).isSome := by decide
  obtain ⟨st', hst⟩ := Option.isSome_iff_exists.mp hs
  have hgen : ai_generate_plan 10 0 [⟨1, 4, 3, some 5, 0⟩] 5 = some st'.plan := by
    rw [gen_singleton_eval, hst]
    rfl
  exact ⟨_, hgen, c4_per_block_cap 10 0 _ 5 _ hgen⟩

/-- C5 (counterexample): a subject with `totalHours = 0.04` yields a block of
0.0 hours (`round(0.04, 1) = 0.0`), so a non-positive block does appear in a
returned plan. -/
theorem c5_positive_blocks_counterexample :
    ∃ plan : Plan, ai_generate_plan 8 0 [⟨1, 1 / 25, 2, some 5, 0⟩] 5 = some plan ∧
      ∃ (d : Fin 7), ∃ c ∈ plan d, ¬ (0 < c.hours) := by
  have hs : (allocAll 5 8 [⟨1, 1 / 25, 2, some 5, 0⟩] initState).isSome := by decide
  obtain ⟨st', hst⟩ := Option.isSome_iff_exists.mp hs
  have hgen : ai_generate_plan 8 0 [⟨1, 1 / 25, 2, some 5, 0⟩] 5 = some st'.plan := by
    rw [gen_singleton_eval, hst]
    rfl
  refine ⟨_, hgen, 0, ⟨1, 0⟩, ?_, by norm_num⟩
  have h0 : st'.plan 0 = [⟨1, 0⟩] := state_day_eval hst 0 (by decide)
  rw [h0]
  exact List.mem_singleton.mpr rfl

/-- C5 (amended: for subjects whose `totalHours` are all integer multiples of
0.1): every block of a returned plan has strictly positive hours.  (Without
that restriction zero-hour blocks occur, see the counterexample.) -/
theorem c5_positive_blocks (fuel : ℕ) (today : ℤ) (subs : List Subject) (hpd : ℚ)
    (plan : Plan) (hT : ∀ s ∈ subs, Tenths s.total_hours)
    (h : ai_generate_plan fuel today subs hpd = some plan) :
    ∀ (d : Fin 7), ∀ c ∈ plan d, 0 < c.hours := by
  obtain ⟨st', hA, hP⟩ := gen_elim h
  have hT' : ∀ s ∈ sorted_subs today subs, Tenths s.total_hours :=
    fun s hs => hT s ((List.mergeSort_perm subs _).mem_iff.mp hs)
  obtain ⟨-, hpos⟩ := allocAll_pos _ _ _ hT' tenths_zero hA
  intro d c hc
  rw [← hP] at hc
  rcases hpos d c hc with h1 | h1
  · exact absurd h1 (List.not_mem_nil c)
  · exact h1

/-- Witness for C5: a concrete run whose blocks are all positive. -/
theorem c5_positive_blocks_witness :
    ∃ plan : Plan, ai_generate_plan 10 0 [⟨1, 2, 2, some 5, 0⟩] 5 = some plan ∧
      ∀ (d : Fin 7), ∀ c ∈ plan d, 0 < c.hours := by
  have hs : (allocAll 5 10 [⟨1, 2, 2, some 5, 0⟩] initState).isSome := by decide
  obtain ⟨st', hst⟩ := Option.isSome_iff_exists.mp hs
  have hgen : ai_generate_plan 10 0 [⟨1, 2, 2, some 5, 0⟩] 5 = some st'.plan := by
    rw [gen_singleton_eval, hst]
    rfl
  exact ⟨_, hgen, c5_positive_blocks 10 0 _ 5 _
    (by intro s hs2; simp at hs2; subst hs2; exact ⟨20, by norm_num⟩) hgen⟩

/-- C6: the ranking returns a permutation of the input sorted in descending
urgency order, where `urgency(s) = priority * 10 + min(50, 100 / daysLeft)`,
`daysLeft = max(1, deadline - today)` with fallback 30 for an unparseable
deadline (never an error), and subjects of equal urgency keep their relative
input order (stable sort). -/
theorem c6_rank (today : ℤ) (subs : List Subject) :
    (get_priority_order today subs).Perm subs ∧
      (get_priority_order today subs).Pairwise
        (fun a b => urgency today b ≤ urgency today a) ∧
      (∀ a b : Subject, List.Sublist [a, b] subs →
        urgency today a = urgency today b →
        List.Sublist [a, b] (get_priority_order today subs)) ∧
      (∀ s : Subject, urgency today s =
        (s.priority : ℚ) * 10 + min 50 (100 / (days_until today s.deadline : ℚ))) ∧
      (∀ dl : ℤ, days_until today (some dl) = max 1 (dl - today)) ∧
      days_until today none = 30 := by
  have htrans : ∀ a b c : Subject,
      (decide (urgency today b ≤ urgency today a)) →
      (decide (urgency today c ≤ urgency today b)) →
      (decide (urgency today c ≤ urgency today a)) := by
    intro a b c hab hbc
    rw [decide_eq_true_eq] at hab hbc ⊢
    exact le_trans hbc hab
  have htotal : ∀ a b : Subject,
      (decide (urgency today b ≤ urgency today a)) ||
        (decide (urgency today a ≤ urgency today b)) := by
    intro a b
    rcases le_total (urgency today b) (urgency today a) with h | h
    · simp [h]
    · simp [h]
  refine ⟨List.mergeSort_perm subs _, ?_, ?_, fun s => rfl, fun dl => rfl, rfl⟩
  · have hp := List.sorted_mergeSort htrans htotal subs
    exact hp.imp (fun hab => of_decide_eq_true hab)
  · intro a b hsub heq
    exact List.pair_sublist_mergeSort htrans htotal
      (decide_eq_true (le_of_eq heq.symm)) hsub

/-- C7: the productivity score computes exactly the specified formula — 0
when the total workload is 0, otherwise
`max(0, round(doneH/totalH*100 - min(missedCount*3, 25)))` — so the missed
penalty never exceeds 25 points and the score is never negative. -/
theorem c7_score_formula (subs : List Subject) (sess : List SessionRec) :
    calc_productivity_score subs sess = score_spec subs sess ∧
      min ((missed_count sess : ℚ) * 3) 25 ≤ 25 ∧
      0 ≤ calc_productivity_score subs sess := by
  refine ⟨rfl, min_le_right _ _, ?_⟩
  unfold calc_productivity_score
  split
  · exact le_refl 0
  · exact le_max_left 0 _

/-- C8 (counterexample): with completed hours exceeding total hours (20 of
10) and no sessions, the score is 200: it does exceed 100, because the base
term is not a true percentage when `completedHours > totalHours`. -/
theorem c8_score_upper_counterexample :
    ¬ (calc_productivity_score [⟨1, 10, 2, some 5, 20⟩] [] ≤ 100) := by
  have h : calc_productivity_score [⟨1, 10, 2, some 5, 20⟩] [] = 200 := by
    unfold calc_productivity_score total_h done_h missed_count
    norm_num
  rw [h]
  norm_num

/-- C8 (amended: provided the summed completed hours are nonnegative and do
not exceed the summed total hours): the productivity score never exceeds
100. -/
theorem c8_score_upper_bound (subs : List Subject) (sess : List SessionRec)
    (h0 : 0 ≤ done_h subs) (h1 : done_h subs ≤ total_h subs) :
    calc_productivity_score subs sess ≤ 100 := by
  unfold calc_productivity_score
  split
  case isTrue => norm_num
  case isFalse hne =>
    have hpos : 0 < total_h subs := lt_of_le_of_ne (le_trans h0 h1) (Ne.symm hne)
    have hd : done_h subs / total_h subs ≤ 1 := (div_le_one hpos).mpr h1
    have hbase : done_h subs / total_h subs * 100 ≤ 100 := by linarith
    have hpen : 0 ≤ min ((missed_count sess : ℚ) * 3) 25 :=
      le_min (by positivity) (by norm_num)
    have hr : round (done_h subs / total_h subs * 100 -
        min ((missed_count sess : ℚ) * 3) 25) ≤ round (100 : ℚ) :=
      round_mono (by linarith)
    have h100 : round (100 : ℚ) = 100 := by simp
    rw [h100] at hr
    exact max_le (by norm_num) hr

/-- Witness for C8: a concrete half-done subject stays at or below 100. -/
theorem c8_score_upper_witness :
    0 ≤ done_h [⟨1, 10, 2, some 5, 5⟩] ∧
      done_h [⟨1, 10, 2, some 5, 5⟩] ≤ total_h [⟨1, 10, 2, some 5, 5⟩] ∧
      calc_productivity_score [⟨1, 10, 2, some 5, 5⟩] [] ≤ 100 :=
  ⟨by norm_num [done_h], by norm_num [done_h, total_h],
    c8_score_upper_bound [⟨1, 10, 2, some 5, 5⟩] []
      (by norm_num [done_h]) (by norm_num [done_h, total_h])⟩

/-- C9: for non-positive capacity (and fuel at least 7, enough for the day
cursor to run to exhaustion) the allocator returns the all-empty plan rather
than raising an error: every subject receives zero blocks. -/
theorem c9_nonpositive_capacity (fuel : ℕ) (today : ℤ) (subs : List Subject)
    (hpd : ℚ) (hcap : hpd ≤ 0) (hfuel : 7 ≤ fuel) :
    ∃ plan : Plan, ai_generate_plan fuel today subs hpd = some plan ∧
      ∀ d : Fin 7, plan d = [] := by
  obtain ⟨i, -, heq⟩ := allocAll_cap0 hcap (sorted_subs today subs) fuel initState rfl hfuel
  refine ⟨initState.plan, ?_, fun d => rfl⟩
  unfold ai_generate_plan
  rw [heq]
  rfl

/-- Witness for C9: capacity 0 with one subject gives the empty plan. -/
theorem c9_nonpositive_capacity_witness :
    ∃ plan : Plan, ai_generate_plan 7 0 [⟨1, 5, 2, some 3, 0⟩] 0 = some plan ∧
      ∀ d : Fin 7, plan d = [] :=
  c9_nonpositive_capacity 7 0 [⟨1, 5, 2, some 3, 0⟩] 0 (le_refl 0) (le_refl 7)

/-- C10: the per-block cap bounds single blocks, not a subject's daily
total: a priority-3 subject with 6 hours at capacity 6 receives two 3-hour
blocks on Monday, totalling 6 hours — above its 3-hour per-block cap and
equal to the full daily capacity. -/
theorem c10_multiple_blocks_per_day :
    ∃ plan : Plan, ai_generate_plan 10 0 [⟨1, 6, 3, some 10, 0⟩] 6 = some plan ∧
      plan 0 = [⟨1, 3⟩, ⟨1, 3⟩] ∧ (∀ c ∈ plan 0, c.subject_id = 1) ∧
      daySum plan 0 = 6 ∧ max_block 3 < daySum plan 0 := by
  have hs : (allocAll 6 10 [⟨1, 6, 3, some 10, 0⟩] initState).isSome := by decide
  obtain ⟨st', hst⟩ := Option.isSome_iff_exists.mp hs
  have hgen : ai_generate_plan 10 0 [⟨1, 6, 3, some 10, 0⟩] 6 = some st'.plan := by
    rw [gen_singleton_eval, hst]
    rfl
  have h0 : st'.plan 0 = [⟨1, 3⟩, ⟨1, 3⟩] := state_day_eval hst 0 (by decide)
  refine ⟨_, hgen, h0, ?_, ?_, ?_⟩
  · rw [h0]
    intro c hc
    rcases List.mem_cons.mp hc with h | h
    · rw [h]
    · rw [List.mem_singleton.mp h]
  · rw [daySum, h0]
    norm_num
  · rw [daySum, h0]
    show max_block 3 < ([⟨1, 3⟩, ⟨1, 3⟩].map Block.hours).sum
    rw [max_block]
    norm_num

end StudyPlanner
